import Mathlib

/-!
Verification of the miniclawd orchestration core: a shallow embedding of the
scheduler (`src/infrastructure/scheduler.ts`), the async message queue
(`src/infrastructure/queue/message-bus.ts`) and the subagent manager
(`src/application/subagent.ts`), together with theorems settling the frozen
behavioural claims about them.

Modelling conventions:
* Millisecond timestamps are `Nat` (epoch milliseconds are non-negative).
  JavaScript truthiness checks on numbers (`x && ...`, `x || Infinity`) are
  embedded explicitly as `≠ 0` / `= 0` tests.
* Optional fields (`atMs?`, `nextRunAtMs?`, ...) are `Option`.
* The external cron library (`cron-parser`) is abstracted as an oracle of type
  `CronOracle`; `Except.error` represents a parse failure (a thrown exception),
  and the `try/catch` around the library call is embedded as a `match`.
* Filesystem reads are passed in as values (`Option String` for a file that may
  be absent); wall-clock reads are passed in as explicit `Nat` parameters.
* A job callback (`onJob`) outcome is `Option (Except String Unit)`: `none`
  models a scheduler constructed without a callback (`this.onJob === null`),
  `some (.error e)` models a callback that throws a value whose JavaScript
  string rendering (`String(error)`) is `e`.
-/

namespace Miniclawd

/-- Schedule definition for a job (`Schedule` in `src/core/types/scheduler.ts`).
`kind` is one of `"at" | "every" | "cron"` in the TypeScript type. -/
structure Schedule where
  kind : String
  atMs : Option Nat := none
  everyMs : Option Nat := none
  expr : Option String := none
  tz : Option String := none
deriving Repr, DecidableEq

/-- What to do when the job runs (`JobPayload`). `kind` is one of
`"system_event" | "agent_turn" | "heartbeat"` in the TypeScript type. -/
structure JobPayload where
  kind : String
  message : String
  deliver : Bool
  channel : Option String := none
  «to» : Option String := none
deriving Repr, DecidableEq

/-- Runtime state of a job (`JobState`). -/
structure JobState where
  nextRunAtMs : Option Nat := none
  lastRunAtMs : Option Nat := none
  lastStatus : Option String := none
  lastError : Option String := none
deriving Repr, DecidableEq

/-- A scheduled job (`ScheduledJob`). -/
structure ScheduledJob where
  id : String
  name : String
  enabled : Bool
  schedule : Schedule
  payload : JobPayload
  state : JobState
  createdAtMs : Nat
  updatedAtMs : Nat
  deleteAfterRun : Bool
deriving Repr, DecidableEq

/-- Abstraction of the external `cron-parser` library call
`CronExpressionParser.parse(expr, currentDate, tz).next().getTime()`:
given the expression, the optional timezone and the current time it either
returns the next occurrence or fails (`Except.error` = thrown parse error). -/
def CronOracle : Type := String → Option String → Nat → Except String Nat

/-- Embedding of `computeNextRun(schedule, currentMs)` from
`src/infrastructure/scheduler.ts`.  The JavaScript truthiness guards
(`schedule.atMs && ...`, `!schedule.everyMs || schedule.everyMs <= 0`,
`schedule.expr` non-empty) are spelled out as explicit tests; the `try/catch`
around the cron library is the `match` on the oracle's `Except` result. -/
def computeNextRun (cron : CronOracle) (schedule : Schedule) (currentMs : Nat) :
    Option Nat :=
  if schedule.kind = "at" then
    match schedule.atMs with
    | some a => if a ≠ 0 ∧ currentMs < a then some a else none
    | none => none
  else if schedule.kind = "every" then
    match schedule.everyMs with
    | some e => if e = 0 then none else some (currentMs + e)
    | none => none
  else if schedule.kind = "cron" then
    match schedule.expr with
    | some ex =>
      if ex = "" then none
      else
        match cron ex schedule.tz currentMs with
        | Except.ok n => some n
        | Except.error _ => none
    | none => none
  else none

/-! #### JavaScript string primitives

The heartbeat check uses `content.split("\n")`, `line.trim()` and
`String.prototype.startsWith`.  These are embedded as executable functions
over the character list of the string (Lean's own `String.splitOn`/`trim` have
the same behaviour on the inputs of interest but do not reduce inside the
kernel, so the claims could not be checked on concrete files). -/

/-- Character-level split: `splitOnChar sep` agrees with JavaScript
`s.split(sep)` for a one-character separator (the split of the empty string is
`[""]`). -/
def splitOnChar (sep : Char) : List Char → List (List Char)
  | [] => [[]]
  | c :: rest =>
    let r := splitOnChar sep rest
    if c = sep then [] :: r
    else
      match r with
      | g :: gs => (c :: g) :: gs
      | [] => [[c]]

/-- Drop leading whitespace characters. -/
def dropWs : List Char → List Char
  | [] => []
  | c :: rest => if c.isWhitespace then dropWs rest else c :: rest

/-- Trim whitespace from both ends, as JavaScript `trim()` does on ASCII
whitespace. -/
def trimChars (cs : List Char) : List Char :=
  (dropWs ((dropWs cs).reverse)).reverse

/-- JavaScript `s.trim()`. -/
def jsTrim (s : String) : String := ⟨trimChars s.data⟩

/-- JavaScript `s.split(sep)` for a single-character separator. -/
def jsSplit (sep : Char) (s : String) : List String :=
  (splitOnChar sep s.data).map String.mk

/-- Boolean list-prefix test. -/
def isPrefixChars : List Char → List Char → Bool
  | [], _ => true
  | _ :: _, [] => false
  | p :: ps, c :: cs => p = c && isPrefixChars ps cs

/-- JavaScript `s.startsWith(pre)`. -/
def jsStartsWith (s pre : String) : Bool := isPrefixChars pre.data s.data

/-- The exact-match line patterns skipped by the heartbeat emptiness check
(`skipPatterns` in `isHeartbeatEmpty`). -/
def heartbeatSkipPatterns : List String := ["- [ ]", "* [ ]", "- [x]", "* [x]"]

/-- One line of HEARTBEAT.md is skipped when its trimmed form is blank, starts
a heading, starts an HTML comment, or is exactly a bare checkbox marker:
the loop body of `isHeartbeatEmpty`. -/
def lineIsSkippable (line : String) : Bool :=
  let t := jsTrim line
  decide (t = "") || jsStartsWith t "#" || jsStartsWith t "<!--" ||
    decide (t ∈ heartbeatSkipPatterns)

/-- Embedding of `isHeartbeatEmpty(content)`: `none` models a `null` content
argument; the empty string is falsy in the `!content` guard. -/
def isHeartbeatEmpty : Option String → Bool
  | none => true
  | some c =>
    if c = "" then true
    else (jsSplit '\n' c).all lineIsSkippable

/-- Embedding of `Scheduler.checkHeartbeatFile()`: `hb` is the content of the
workspace `HEARTBEAT.md` (`none` when the file is absent or unreadable). -/
def checkHeartbeatFile (hb : Option String) : Bool :=
  match hb with
  | none => false
  | some content => !(isHeartbeatEmpty (some content))

/-- The `try { await this.onJob(job) ... } catch` portion of
`Scheduler.executeJob`: `none` models a `null` callback (the guarded call is
skipped and the `try` block succeeds), `some (.error e)` a callback throwing a
value rendered as `e` by `String(error)`. -/
def applyCallbackResult (job : ScheduledJob)
    (cbRes : Option (Except String Unit)) : ScheduledJob :=
  match cbRes with
  | some (Except.error e) =>
    { job with state :=
        { job.state with lastStatus := some "error", lastError := some e } }
  | _ =>
    { job with state :=
        { job.state with lastStatus := some "ok", lastError := none } }

/-- Embedding of `Scheduler.executeJob(job)`.  `startMs` is the `nowMs()` read
at entry (stored in `lastRunAtMs`); `now` is the later `nowMs()` reads (stored
in `updatedAtMs` and fed to `computeNextRun`).  The first component is the job
as it remains in the store (`none` when the one-shot job is deleted); the
second records whether the `onJob` callback was invoked. -/
def executeJob (cron : CronOracle) (hb : Option String)
    (cbRes : Option (Except String Unit)) (startMs now : Nat)
    (job : ScheduledJob) : Option ScheduledJob × Bool :=
  if job.payload.kind = "heartbeat" ∧ checkHeartbeatFile hb = false then
    (some { job with
        state := { job.state with
          lastStatus := some "skipped",
          lastRunAtMs := some startMs,
          nextRunAtMs := computeNextRun cron job.schedule now },
        updatedAtMs := now }, false)
  else
    let j1 := applyCallbackResult job cbRes
    let j2 := { j1 with
        state := { j1.state with lastRunAtMs := some startMs },
        updatedAtMs := now }
    if job.schedule.kind = "at" then
      if job.deleteAfterRun then (none, cbRes.isSome)
      else
        let j3 := { j2 with enabled := false, state.nextRunAtMs := none }
        (some j3, cbRes.isSome)
    else
      let j3 := { j2 with
        state.nextRunAtMs := computeNextRun cron j2.schedule now }
      (some j3, cbRes.isSome)

/-- Due-job test from `Scheduler.onTimer`:
`j.enabled && j.state.nextRunAtMs && now >= j.state.nextRunAtMs`
(a `nextRunAtMs` of `0` is falsy and therefore never due). -/
def isDue (now : Nat) (j : ScheduledJob) : Bool :=
  j.enabled &&
    match j.state.nextRunAtMs with
    | some n => decide (n ≠ 0 ∧ n ≤ now)
    | none => false

/-- The store transformation performed by the `for (const job of dueJobs)` loop
of `Scheduler.onTimer`: every due job is replaced by its `executeJob` result
(dropped when deleted), every other job is left untouched.  `cb j` is the
outcome of the `onJob` callback on job `j`. -/
def onTimerJobs (cron : CronOracle) (hb : Option String)
    (cb : ScheduledJob → Option (Except String Unit)) (startMs now : Nat) :
    List ScheduledJob → List ScheduledJob
  | [] => []
  | j :: rest =>
    (if isDue now j then (executeJob cron hb (cb j) startMs now j).1.toList
     else [j]) ++ onTimerJobs cron hb cb startMs now rest

/-- The contribution of one job to `getNextWakeMs`: the filter
`j.enabled && j.state.nextRunAtMs` (so `0` is dropped as falsy) followed by
the projection to `nextRunAtMs`. -/
def jobWakeTime (j : ScheduledJob) : Option Nat :=
  if j.enabled then
    match j.state.nextRunAtMs with
    | some n => if n = 0 then none else some n
    | none => none
  else none

/-- Embedding of `Scheduler.getNextWakeMs()`: `Math.min` over the wake times
of the enabled jobs, `none` when no job is pending. -/
def getNextWakeMs (jobs : List ScheduledJob) : Option Nat :=
  match jobs.filterMap jobWakeTime with
  | [] => none
  | t :: ts => some (ts.foldl Nat.min t)

/-- Embedding of the decision made by `Scheduler.armTimer()`: `some d` means a
single timer is (re-)armed with delay `d = max(0, nextWake - now)` (the `max`
is Nat subtraction), `none` means the scheduler goes idle.  The JavaScript
guard `!nextWake` also rejects a wake time of `0`. -/
def armTimerDelay (running : Bool) (now : Nat) (jobs : List ScheduledJob) :
    Option Nat :=
  match getNextWakeMs jobs with
  | none => none
  | some w => if w = 0 ∨ running = false then none else some (w - now)

/-- Sort key used by `Scheduler.listJobs()`:
`a.state.nextRunAtMs || Infinity`.  `none` stands for `Infinity`; a stored
`nextRunAtMs` of `0` is falsy and is mapped to `Infinity` as well. -/
def jobSortKey (j : ScheduledJob) : Option Nat :=
  match j.state.nextRunAtMs with
  | some n => if n = 0 then none else some n
  | none => none

/-- Order on sort keys induced by the numeric comparator
`(a.state.nextRunAtMs || Infinity) - (b.state.nextRunAtMs || Infinity)`:
defined values compare numerically and `Infinity` (`none`) is the top. -/
def wakeLe : Option Nat → Option Nat → Prop
  | some x, some y => x ≤ y
  | some _, none => True
  | none, some _ => False
  | none, none => True

instance : DecidableRel wakeLe := fun a b =>
  match a, b with
  | some x, some y => (inferInstance : Decidable (x ≤ y))
  | some _, none => isTrue trivial
  | none, some _ => isFalse (fun h => h)
  | none, none => isTrue trivial

/-- Comparator of `Scheduler.listJobs()` lifted to jobs. -/
def jobLe (a b : ScheduledJob) : Prop := wakeLe (jobSortKey a) (jobSortKey b)

instance : DecidableRel jobLe := fun a b =>
  inferInstanceAs (Decidable (wakeLe (jobSortKey a) (jobSortKey b)))

instance : IsTotal ScheduledJob jobLe := by
  constructor
  intro a b
  unfold jobLe
  cases jobSortKey a <;> cases jobSortKey b <;> simp [wakeLe] <;> omega

instance : IsTrans ScheduledJob jobLe := by
  constructor
  intro a b c
  unfold jobLe
  cases jobSortKey a <;> cases jobSortKey b <;> cases jobSortKey c <;>
    simp [wakeLe] <;> omega

/-- Embedding of `Scheduler.listJobs()`: drop the heartbeat job, then sort by
the comparator above.  JavaScript `Array.prototype.sort` with a consistent
comparator is modelled by the stable `insertionSort`. -/
def listJobs (hbId : Option String) (jobs : List ScheduledJob) :
    List ScheduledJob :=
  List.insertionSort jobLe
    (jobs.filter (fun j => decide ((some j.id : Option String) ≠ hbId)))

/-! ### Persistence (`Scheduler.saveStore` / `Scheduler.loadStore`)

`JSON.stringify` drops `undefined` fields, so an optional field written as
`undefined` is absent from the file and read back as `undefined`; both are
`none` here.  `RawJob` is the shape of one entry of the persisted `jobs`
array; fields that `loadStore` defaults are `Option`-typed. -/

/-- Persisted shape of a `Schedule` (the explicit whitelist written by
`saveStore`; `kind` is always written and read back verbatim). -/
structure RawSchedule where
  kind : String
  atMs : Option Nat
  everyMs : Option Nat
  expr : Option String
  tz : Option String
deriving Repr, DecidableEq

/-- Persisted shape of a `JobPayload`. -/
structure RawPayload where
  kind : Option String
  message : Option String
  deliver : Option Bool
  channel : Option String
  «to» : Option String
deriving Repr, DecidableEq

/-- Persisted shape of a `JobState`. -/
structure RawState where
  nextRunAtMs : Option Nat
  lastRunAtMs : Option Nat
  lastStatus : Option String
  lastError : Option String
deriving Repr, DecidableEq

/-- Persisted shape of one job in the store file. -/
structure RawJob where
  id : String
  name : String
  enabled : Option Bool
  schedule : RawSchedule
  payload : RawPayload
  state : RawState
  createdAtMs : Option Nat
  updatedAtMs : Option Nat
  deleteAfterRun : Option Bool
deriving Repr, DecidableEq

/-- Serialization of one job: the field-by-field whitelist in
`Scheduler.saveStore`. -/
def saveJob (j : ScheduledJob) : RawJob :=
  { id := j.id
    name := j.name
    enabled := some j.enabled
    schedule :=
      { kind := j.schedule.kind
        atMs := j.schedule.atMs
        everyMs := j.schedule.everyMs
        expr := j.schedule.expr
        tz := j.schedule.tz }
    payload :=
      { kind := some j.payload.kind
        message := some j.payload.message
        deliver := some j.payload.deliver
        channel := j.payload.channel
        «to» := j.payload.«to» }
    state :=
      { nextRunAtMs := j.state.nextRunAtMs
        lastRunAtMs := j.state.lastRunAtMs
        lastStatus := j.state.lastStatus
        lastError := j.state.lastError }
    createdAtMs := some j.createdAtMs
    updatedAtMs := some j.updatedAtMs
    deleteAfterRun := some j.deleteAfterRun }

/-- The `j.payload?.kind || "agent_turn"` default in `Scheduler.loadStore`:
a missing or empty (falsy) kind becomes `"agent_turn"`. -/
def loadPayloadKind : Option String → String
  | some k => if k = "" then "agent_turn" else k
  | none => "agent_turn"

/-- Deserialization of one job: the mapping with defaults in
`Scheduler.loadStore` (`?? true`, `|| ""`, `|| false`, `|| 0` — for values
written by `saveJob` the `||` defaults agree with `getD` because the default
is itself the falsy value of the type). -/
def loadJob (r : RawJob) : ScheduledJob :=
  { id := r.id
    name := r.name
    enabled := r.enabled.getD true
    schedule :=
      { kind := r.schedule.kind
        atMs := r.schedule.atMs
        everyMs := r.schedule.everyMs
        expr := r.schedule.expr
        tz := r.schedule.tz }
    payload :=
      { kind := loadPayloadKind r.payload.kind
        message := r.payload.message.getD ""
        deliver := r.payload.deliver.getD false
        channel := r.payload.channel
        «to» := r.payload.«to» }
    state :=
      { nextRunAtMs := r.state.nextRunAtMs
        lastRunAtMs := r.state.lastRunAtMs
        lastStatus := r.state.lastStatus
        lastError := r.state.lastError }
    createdAtMs := r.createdAtMs.getD 0
    updatedAtMs := r.updatedAtMs.getD 0
    deleteAfterRun := r.deleteAfterRun.getD false }

/-- The jobs array written by `Scheduler.saveStore`: the heartbeat job
(`j.id !== this.heartbeatJobId`) is filtered out before serialization. -/
def saveStoreJobs (hbId : Option String) (jobs : List ScheduledJob) :
    List RawJob :=
  (jobs.filter (fun j => decide ((some j.id : Option String) ≠ hbId))).map
    saveJob

/-- The jobs array produced by `Scheduler.loadStore` from a parsed file. -/
def loadStoreJobs (raw : List RawJob) : List ScheduledJob :=
  raw.map loadJob

/-- Well-typedness of a job's payload kind per the TypeScript union
`"system_event" | "agent_turn" | "heartbeat"`. -/
def WellTypedJob (j : ScheduledJob) : Prop :=
  j.payload.kind = "system_event" ∨ j.payload.kind = "agent_turn" ∨
    j.payload.kind = "heartbeat"

/-! ### AsyncQueue (`src/infrastructure/queue/message-bus.ts`)

The queue runs on a single-threaded cooperative event loop, so each of
`push`, the synchronous part of `pop`/`popWithTimeout`, and a timeout callback
executes atomically.  We model the queue as a state machine over these atomic
events.  Waiters are identified by the `Nat` chosen at registration time
(each `pop`/`popWithTimeout` call creates a fresh resolver closure, so a
reused identifier makes the event a no-op).  `timers` holds the waiters whose
`setTimeout` is still active: `clearTimeout` inside `wrappedResolve` removes
the waiter from it, and a `fire` event for a cleared timer cannot occur, which
is modelled by making it a no-op.  `outcomes` logs, in order, the value each
waiter's promise was resolved with (`none` = the timeout's `resolve(null)`);
`returned` logs items handed back synchronously because the buffer was
non-empty. -/

/-- State of one `AsyncQueue` together with its observation log. -/
structure QState (α : Type) where
  queue : List α
  resolvers : List Nat
  timers : List Nat
  used : List Nat
  outcomes : List (Nat × Option α)
  returned : List α
deriving DecidableEq

/-- The initial queue: `queue = []`, `resolvers = []`. -/
def initQ (α : Type) : QState α :=
  { queue := [], resolvers := [], timers := [], used := [], outcomes := [],
    returned := [] }

/-- Atomic events of the queue. -/
inductive QEvent (α : Type) where
  | push (x : α)
  | pop (w : Nat)
  | popT (w : Nat)
  | fire (w : Nat)
deriving DecidableEq

/-- One atomic step of the queue.

* `push x` — `AsyncQueue.push`: shift the oldest resolver and resolve it with
  the item (running its `clearTimeout`), else append the item to the buffer.
* `pop w` — the synchronous part of `AsyncQueue.pop`: shift the buffer if
  non-empty, else register a fresh resolver.
* `popT w` — the synchronous part of `AsyncQueue.popWithTimeout`: the same,
  but the registered resolver also has an active timeout.
* `fire w` — the `setTimeout` callback of `popWithTimeout`: only an active
  timer can fire; it removes the waiter's registration (`indexOf`/`splice`)
  and resolves the waiter with `null`. -/
def qstep {α : Type} (s : QState α) : QEvent α → QState α
  | .push x =>
    match s.resolvers with
    | w :: rest =>
      { s with resolvers := rest, timers := s.timers.erase w,
               outcomes := s.outcomes ++ [(w, some x)] }
    | [] => { s with queue := s.queue ++ [x] }
  | .pop w =>
    match s.queue with
    | x :: rest => { s with queue := rest, returned := s.returned ++ [x] }
    | [] =>
      if w ∈ s.used then s
      else { s with resolvers := s.resolvers ++ [w], used := s.used ++ [w] }
  | .popT w =>
    match s.queue with
    | x :: rest => { s with queue := rest, returned := s.returned ++ [x] }
    | [] =>
      if w ∈ s.used then s
      else { s with resolvers := s.resolvers ++ [w],
                    timers := s.timers ++ [w], used := s.used ++ [w] }
  | .fire w =>
    if w ∈ s.timers then
      { s with timers := s.timers.erase w, resolvers := s.resolvers.erase w,
               outcomes := s.outcomes ++ [(w, none)] }
    else s

/-- Run the queue over a list of events from the initial state. -/
def runQ {α : Type} (evs : List (QEvent α)) : QState α :=
  evs.foldl qstep (initQ α)

/-- Items pushed over a list of events. -/
def pushedItems {α : Type} (evs : List (QEvent α)) : List α :=
  evs.filterMap (fun e =>
    match e with
    | .push x => some x
    | _ => none)

/-- Items delivered to waiters (the `some` outcomes). -/
def delivered {α : Type} (s : QState α) : List α :=
  s.outcomes.filterMap Prod.snd

/-- Multiset of items currently held or already handed out by the queue. -/
def qMass {α : Type} (s : QState α) : Multiset α :=
  (s.queue : Multiset α) + (s.returned : Multiset α) +
    (delivered s : Multiset α)

/-! ### Subagent manager (`src/application/subagent.ts`) -/

/-- Tool call request from the LLM (`src/core/types/tool.ts`); the
`arguments` record is abstracted as a string. -/
structure ToolCallRequest where
  id : String
  name : String
  arguments : String
deriving Repr, DecidableEq

/-- LLM response structure (`src/core/types/llm.ts`), token usage omitted. -/
structure LLMResponse where
  content : Option String
  toolCalls : List ToolCallRequest
  finishReason : String
deriving Repr, DecidableEq

/-- Modelled from the spec: `AIProvider.hasToolCalls` lives in
`src/infrastructure/llm/ai-sdk-provider.ts`, which is not in the source tree;
per the spec's loop description ("if the response contains tool calls"), it
tests whether the response carries at least one tool call. -/
def hasToolCalls (r : LLMResponse) : Bool :=
  !r.toolCalls.isEmpty

/-- The iteration ceiling `maxIterations = 15` of
`SubagentManager.runSubagent`. -/
def subagentMaxIterations : Nat := 15

/-- The fixed fallback used when the loop ends without a final text. -/
def subagentPlaceholder : String :=
  "Task completed but no final response was generated."

/-- The `while (iteration < maxIterations)` loop of
`SubagentManager.runSubagent`, abstracted over the environment: `respond i`
is the `LLMResponse` the provider returns on the `i`-th call (tool execution
only feeds messages back into `respond` and is otherwise opaque).  Returns
`finalResult` together with the number of iterations executed. -/
def subagentLoop (respond : Nat → LLMResponse) :
    Nat → Nat → Option String × Nat
  | 0, iter => (none, iter)
  | Nat.succ fuel, iter =>
    let r := respond (iter + 1)
    if hasToolCalls r then subagentLoop respond fuel (iter + 1)
    else (r.content, iter + 1)

/-- The synthetic inbound message published by
`SubagentManager.announceResult` via `createInboundMessage`, reduced to the
fields the claims are about. -/
structure SubagentAnnouncement where
  status : String
  resultText : String
  channel : String
  senderId : String
  chatId : String
deriving Repr, DecidableEq

/-- The non-exception path of `SubagentManager.runSubagent`: run the bounded
loop, default a missing final result to the placeholder, and announce with
status `"ok"` on the bus (channel `"system"`, sender `"subagent"`).  The
second component counts the LLM/tool iterations executed. -/
def runSubagent (respond : Nat → LLMResponse)
    (originChannel originChatId : String) : SubagentAnnouncement × Nat :=
  let out := subagentLoop respond subagentMaxIterations 0
  let finalResult := out.1.getD subagentPlaceholder
  ({ status := "ok", resultText := finalResult, channel := "system",
     senderId := "subagent",
     chatId := originChannel ++ ":" ++ originChatId }, out.2)

/-! ### Concrete fixtures used by witnesses and counterexamples -/

/-- A cron oracle on which every expression fails to parse. -/
def cronAlwaysFails : CronOracle := fun _ _ _ => Except.error "parse error"

/-- A recurring sample job, due at time `5`. -/
def sampleEveryJob : ScheduledJob :=
  { id := "job-1"
    name := "sample"
    enabled := true
    schedule := { kind := "every", everyMs := some 10 }
    payload := { kind := "agent_turn", message := "hi", deliver := false }
    state := { nextRunAtMs := some 5 }
    createdAtMs := 1
    updatedAtMs := 1
    deleteAfterRun := false }

/-! ### C3 — `computeNextRun` on schedules of kind `"at"` -/

/-- C3: for a schedule of kind `"at"` and any current time `t`,
`computeNextRun` returns `atMs` exactly when `atMs > t` (and `none` when
`atMs` is missing), and never returns a value `≤ t`. -/
theorem computeNextRun_at_iff (cron : CronOracle) (s : Schedule) (t : Nat)
    (h : s.kind = "at") :
    computeNextRun cron s t =
      (match s.atMs with
       | some a => if t < a then some a else none
       | none => none)
    ∧ (∀ r, computeNextRun cron s t = some r → t < r) := by
  have hmain : computeNextRun cron s t =
      (match s.atMs with
       | some a => if t < a then some a else none
       | none => none) := by
    unfold computeNextRun
    rw [h]
    simp only [if_pos rfl]
    cases s.atMs with
    | none => rfl
    | some a =>
      by_cases ha : t < a
      · have hne : a ≠ 0 := by omega
        simp [ha, hne]
      · simp [ha]
  refine ⟨hmain, ?_⟩
  intro r hr
  rw [hmain] at hr
  cases hatm : s.atMs with
  | none => rw [hatm] at hr; simp at hr
  | some a =>
    rw [hatm] at hr
    by_cases ha : t < a
    · simp only [if_pos ha, Option.some.injEq] at hr
      omega
    · simp [ha] at hr

/-- Witness for C3 at the concrete schedule `at 10` and times `5` and `10`. -/
theorem computeNextRun_at_iff_witness :
    Schedule.kind { kind := "at", atMs := some 10 } = "at"
    ∧ computeNextRun cronAlwaysFails { kind := "at", atMs := some 10 } 5
        = some 10
    ∧ (∀ r, computeNextRun cronAlwaysFails { kind := "at", atMs := some 10 } 5
        = some r → 5 < r) := by
  have h := computeNextRun_at_iff cronAlwaysFails
    { kind := "at", atMs := some 10 } 5 rfl
  exact ⟨rfl, by simpa using h.1, h.2⟩

/-! ### C8 — `computeNextRun` on invalid cron expressions -/

/-- C8: for a schedule of kind `"cron"` whose expression fails to parse (the
oracle throws, embedded as `Except.error`), `computeNextRun` returns `none`;
being a total function, it does not throw — the thrown parse error is
swallowed by the embedded `try/catch`. -/
theorem computeNextRun_cron_invalid (cron : CronOracle) (s : Schedule)
    (t : Nat) (h : s.kind = "cron")
    (hfail : ∀ ex, s.expr = some ex → ∃ e, cron ex s.tz t = Except.error e) :
    computeNextRun cron s t = none := by
  unfold computeNextRun
  rw [h]
  have hne : ¬ ("cron" = "at") := by decide
  have hne2 : ¬ ("cron" = "every") := by decide
  rw [if_neg hne, if_neg hne2, if_pos rfl]
  cases hex : s.expr with
  | none => rfl
  | some ex =>
    by_cases hempty : ex = ""
    · simp [hempty]
    · obtain ⟨e, he⟩ := hfail ex hex
      simp [hempty, he]

/-- Witness for C8 at a concrete malformed expression and the oracle on which
every parse throws. -/
theorem computeNextRun_cron_invalid_witness :
    Schedule.kind { kind := "cron", expr := some "not a cron expr" } = "cron"
    ∧ computeNextRun cronAlwaysFails
        { kind := "cron", expr := some "not a cron expr" } 1000 = none := by
  refine ⟨rfl, ?_⟩
  exact computeNextRun_cron_invalid cronAlwaysFails
    { kind := "cron", expr := some "not a cron expr" } 1000 rfl
    (fun ex _ => ⟨"parse error", rfl⟩)

/-! ### C9 — `listJobs` ordering -/

/-- A job identical to `sampleEveryJob` except that its stored `nextRunAtMs`
is `0` (as a crafted store file can contain). -/
def zeroWakeJob : ScheduledJob :=
  { sampleEveryJob with id := "job-zero", state.nextRunAtMs := some 0 }

/-- A job identical to `sampleEveryJob` except for id and `nextRunAtMs`. -/
def fiveWakeJob : ScheduledJob :=
  { sampleEveryJob with id := "job-five", state.nextRunAtMs := some 5 }

/-- C9 counterexample: a store holding a job with `nextRunAtMs = 0` and a job
with `nextRunAtMs = 5` is listed as `[5, 0]`, not in ascending `nextRunAtMs`
order — the comparator `a.state.nextRunAtMs || Infinity` treats the falsy `0`
like `undefined` and sorts it last. -/
theorem listJobs_zero_sorts_last_cex :
    (listJobs none [zeroWakeJob, fiveWakeJob]).map
        (fun j => j.state.nextRunAtMs) = [some 5, some 0] := by decide

/-- C9 (amended): `listJobs` returns exactly the jobs other than the
heartbeat job, sorted so that defined non-zero `nextRunAtMs` values ascend,
while jobs whose `nextRunAtMs` is undefined — or `0`, which the comparator's
`|| Infinity` treats as undefined — sort last.  `jobSortKey` maps
`nextRunAtMs` to that key (`none` = last). -/
theorem listJobs_ordering (hbId : Option String) (jobs : List ScheduledJob) :
    (listJobs hbId jobs).Perm
        (jobs.filter (fun j => decide ((some j.id : Option String) ≠ hbId)))
    ∧ (∀ j ∈ listJobs hbId jobs, (some j.id : Option String) ≠ hbId)
    ∧ List.Pairwise
        (fun a b => ∀ y, jobSortKey b = some y →
          ∃ x, jobSortKey a = some x ∧ x ≤ y)
        (listJobs hbId jobs) := by
  refine ⟨List.perm_insertionSort jobLe _, ?_, ?_⟩
  · intro j hj
    have hj' : j ∈ jobs.filter
        (fun j => decide ((some j.id : Option String) ≠ hbId)) :=
      (List.perm_insertionSort jobLe _).subset hj
    have := (List.mem_filter.mp hj').2
    simpa using this
  · have hs : List.Sorted jobLe (listJobs hbId jobs) :=
      List.sorted_insertionSort jobLe _
    refine hs.imp ?_
    intro a b hab y hb
    have h' : wakeLe (jobSortKey a) (jobSortKey b) := hab
    rw [hb] at h'
    cases hka : jobSortKey a with
    | none => rw [hka] at h'; exact h'.elim
    | some x =>
      rw [hka] at h'
      exact ⟨x, rfl, h'⟩

/-! ### C5 — store persistence round trip -/

/-- Reloading a saved job is the identity whenever the job's payload kind is
not the empty string (in particular for every kind of the TypeScript union);
every other `||`/`??` default in `loadStore` coincides with the saved value
because the default is the falsy value of the field's type. -/
theorem loadJob_saveJob (j : ScheduledJob) (h : j.payload.kind ≠ "") :
    loadJob (saveJob j) = j := by
  rcases j with ⟨jid, jname, jen, ⟨sk, sa, se, sx, st⟩, ⟨pk, pm, pd, pc, pt⟩,
    ⟨n1, n2, n3, n4⟩, c, u, d⟩
  simp only [JobPayload.kind] at h
  simp [loadJob, saveJob, loadPayloadKind, h]

/-- Reloading the saved image of a list of well-kinded jobs reproduces it. -/
theorem loadStore_saveStore_aux :
    ∀ l : List ScheduledJob, (∀ j ∈ l, j.payload.kind ≠ "") →
      (l.map saveJob).map loadJob = l
  | [], _ => rfl
  | j :: rest, h => by
    simp only [List.map_cons, List.cons.injEq]
    exact ⟨loadJob_saveJob j (h j (List.mem_cons_self j rest)),
      loadStore_saveStore_aux rest (fun x hx => h x (List.mem_cons_of_mem _ hx))⟩

/-- C5: persisting a `JobStore` and reloading it yields jobs equal in all
persisted fields, except that the heartbeat job is filtered out before the
write: the reload reproduces exactly the non-heartbeat jobs, and no entry of
the persisted file carries the heartbeat job's id. -/
theorem store_round_trip (hbId : Option String) (jobs : List ScheduledJob)
    (hwt : ∀ j ∈ jobs, WellTypedJob j) :
    loadStoreJobs (saveStoreJobs hbId jobs)
      = jobs.filter (fun j => decide ((some j.id : Option String) ≠ hbId))
    ∧ (∀ hid, hbId = some hid →
        ∀ rj ∈ saveStoreJobs hbId jobs, rj.id ≠ hid) := by
  constructor
  · unfold loadStoreJobs saveStoreJobs
    apply loadStore_saveStore_aux
    intro j hj
    have hw := hwt j (List.mem_of_mem_filter hj)
    rcases hw with h | h | h <;> simp [h]
  · intro hid hhb rj hrj
    unfold saveStoreJobs at hrj
    rw [List.mem_map] at hrj
    obtain ⟨j, hjf, rfl⟩ := hrj
    have hne := (List.mem_filter.mp hjf).2
    rw [hhb] at hne
    simp only [decide_eq_true_iff, ne_eq, Option.some.injEq] at hne
    simpa [saveJob] using hne

/-- The in-memory heartbeat job used in the persistence witness. -/
def heartbeatJob : ScheduledJob :=
  { id := "hb-1"
    name := "Heartbeat"
    enabled := true
    schedule := { kind := "every", everyMs := some 1800000 }
    payload := { kind := "heartbeat", message := "check HEARTBEAT.md",
                 deliver := false }
    state := { nextRunAtMs := some 20 }
    createdAtMs := 1
    updatedAtMs := 1
    deleteAfterRun := false }

/-- Witness for C5 on a two-job store whose second job is the heartbeat job:
the round trip keeps the ordinary job and drops the heartbeat job. -/
theorem store_round_trip_witness :
    loadStoreJobs (saveStoreJobs (some "hb-1") [sampleEveryJob, heartbeatJob])
      = [sampleEveryJob, heartbeatJob].filter
          (fun j => decide ((some j.id : Option String) ≠ some "hb-1"))
    ∧ (∀ hid, (some "hb-1" : Option String) = some hid →
        ∀ rj ∈ saveStoreJobs (some "hb-1") [sampleEveryJob, heartbeatJob],
          rj.id ≠ hid) :=
  store_round_trip (some "hb-1") [sampleEveryJob, heartbeatJob] (by
    intro j hj
    simp only [List.mem_cons, List.not_mem_nil, or_false] at hj
    rcases hj with rfl | rfl
    · exact Or.inr (Or.inl (by decide))
    · exact Or.inr (Or.inr (by decide)))

/-! ### C6 — the heartbeat file gate -/

/-- The loop body of `isHeartbeatEmpty` skips exactly the claim's line
categories: blank, heading, HTML comment, bare un/checked checkbox marker. -/
theorem lineIsSkippable_iff (l : String) :
    lineIsSkippable l = true ↔
      (jsTrim l = "" ∨ jsStartsWith (jsTrim l) "#" = true ∨
       jsStartsWith (jsTrim l) "<!--" = true ∨
       jsTrim l ∈ heartbeatSkipPatterns) := by
  simp [lineIsSkippable, or_assoc]

/-- Characterization of the emptiness check on a present file. -/
theorem isHeartbeatEmpty_some_iff (c : String) :
    isHeartbeatEmpty (some c) = true ↔
      ∀ l ∈ jsSplit '\n' c, lineIsSkippable l = true := by
  show (if c = "" then true else (jsSplit '\n' c).all lineIsSkippable) = true ↔ _
  by_cases hc : c = ""
  · subst hc
    exact ⟨fun _ => by decide, fun _ => by decide⟩
  · rw [if_neg hc, List.all_eq_true]

/-- C6: a heartbeat job is gated on the HEARTBEAT.md content.  If the file is
absent, or every line (after trimming) is blank, a heading, an HTML comment or
a bare un/checked checkbox marker, `executeJob` completes with
`lastStatus = "skipped"`, does not invoke the callback, and still recomputes
`nextRunAtMs`.  If some line is outside those categories and a callback is
supplied, the callback is invoked. -/
theorem heartbeat_gate (cron : CronOracle) (hb : Option String)
    (cbRes : Option (Except String Unit)) (startMs now : Nat)
    (job : ScheduledJob) (hk : job.payload.kind = "heartbeat") :
    ((hb = none ∨ ∃ c, hb = some c ∧ ∀ l ∈ jsSplit '\n' c,
        (jsTrim l = "" ∨ jsStartsWith (jsTrim l) "#" = true ∨
         jsStartsWith (jsTrim l) "<!--" = true ∨
         jsTrim l ∈ heartbeatSkipPatterns)) →
      (executeJob cron hb cbRes startMs now job).2 = false
      ∧ ∃ j', (executeJob cron hb cbRes startMs now job).1 = some j'
          ∧ j'.state.lastStatus = some "skipped"
          ∧ j'.state.nextRunAtMs = computeNextRun cron job.schedule now)
    ∧ (∀ c r, hb = some c → cbRes = some r →
        (∃ l ∈ jsSplit '\n' c,
          ¬(jsTrim l = "" ∨ jsStartsWith (jsTrim l) "#" = true ∨
            jsStartsWith (jsTrim l) "<!--" = true ∨
            jsTrim l ∈ heartbeatSkipPatterns)) →
        (executeJob cron hb cbRes startMs now job).2 = true) := by
  constructor
  · intro hempty
    have hcheck : checkHeartbeatFile hb = false := by
      rcases hempty with rfl | ⟨c, rfl, hall⟩
      · rfl
      · have : isHeartbeatEmpty (some c) = true := by
          rw [isHeartbeatEmpty_some_iff]
          intro l hl
          rw [lineIsSkippable_iff]
          exact hall l hl
        simp [checkHeartbeatFile, this]
    unfold executeJob
    rw [if_pos ⟨hk, hcheck⟩]
    exact ⟨rfl, _, rfl, rfl, rfl⟩
  · intro c r hhb hcb hnon
    subst hhb
    have hne : isHeartbeatEmpty (some c) = false := by
      rcases hnon with ⟨l, hl, hbad⟩
      by_contra h
      rw [Bool.not_eq_false, isHeartbeatEmpty_some_iff] at h
      exact hbad ((lineIsSkippable_iff l).mp (h l hl))
    have hcheck : checkHeartbeatFile (some c) = true := by
      simp [checkHeartbeatFile, hne]
    unfold executeJob
    rw [if_neg (by
      rintro ⟨-, hfalse⟩
      rw [hcheck] at hfalse
      exact Bool.noConfusion hfalse)]
    simp only [hcb]
    by_cases hat : job.schedule.kind = "at"
    · rw [if_pos hat]
      by_cases hdel : job.deleteAfterRun
      · rw [if_pos hdel]; rfl
      · rw [if_neg hdel]; rfl
    · rw [if_neg hat]; rfl

/-- Witness for C6, the two scenarios of the spec: the file
`"# Notes\n- [ ] \n"` skips the heartbeat without invoking the callback, and
the file `"Check the oven"` invokes it. -/
theorem heartbeat_gate_witness :
    ((executeJob cronAlwaysFails (some "# Notes\n- [ ] \n")
        (some (Except.ok ())) 5 6 heartbeatJob).2 = false
      ∧ ∃ j', (executeJob cronAlwaysFails (some "# Notes\n- [ ] \n")
            (some (Except.ok ())) 5 6 heartbeatJob).1 = some j'
          ∧ j'.state.lastStatus = some "skipped"
          ∧ j'.state.nextRunAtMs
              = computeNextRun cronAlwaysFails heartbeatJob.schedule 6)
    ∧ (executeJob cronAlwaysFails (some "Check the oven")
        (some (Except.ok ())) 5 6 heartbeatJob).2 = true := by
  constructor
  · exact (heartbeat_gate cronAlwaysFails (some "# Notes\n- [ ] \n")
      (some (Except.ok ())) 5 6 heartbeatJob (by decide)).1
      (Or.inr ⟨"# Notes\n- [ ] \n", rfl, by decide⟩)
  · exact (heartbeat_gate cronAlwaysFails (some "Check the oven")
      (some (Except.ok ())) 5 6 heartbeatJob (by decide)).2
      "Check the oven" (Except.ok ()) rfl rfl (by decide)

/-! ### Helper lemmas about the tick loop and timer arming -/

/-- The tick loop processes an appended store segment independently. -/
theorem onTimerJobs_append (cron : CronOracle) (hb : Option String)
    (cb : ScheduledJob → Option (Except String Unit)) (startMs now : Nat)
    (l1 l2 : List ScheduledJob) :
    onTimerJobs cron hb cb startMs now (l1 ++ l2)
      = onTimerJobs cron hb cb startMs now l1
        ++ onTimerJobs cron hb cb startMs now l2 := by
  induction l1 with
  | nil => rfl
  | cons j rest ih => simp [onTimerJobs, ih, List.append_assoc]

/-- The fold used for `Math.min(...times)` is a lower bound of the start value
and of every element. -/
theorem foldl_min_bounds :
    ∀ (ts : List Nat) (t : Nat), ts.foldl Nat.min t ≤ t
      ∧ ∀ x ∈ ts, ts.foldl Nat.min t ≤ x
  | [], t => ⟨Nat.le_refl t, by simp⟩
  | x :: ts, t => by
    obtain ⟨h1, h2⟩ := foldl_min_bounds ts (Nat.min t x)
    refine ⟨le_trans h1 (Nat.min_le_left t x), ?_⟩
    intro y hy
    rcases List.mem_cons.mp hy with rfl | hy
    · exact le_trans h1 (Nat.min_le_right t y)
    · exact h2 y hy

/-- The fold used for `Math.min(...times)` returns one of its inputs. -/
theorem foldl_min_mem :
    ∀ (ts : List Nat) (t : Nat), ts.foldl Nat.min t = t ∨ ts.foldl Nat.min t ∈ ts
  | [], _ => Or.inl rfl
  | x :: ts, t => by
    have h := foldl_min_mem ts (Nat.min t x)
    have hfold : (x :: ts).foldl Nat.min t = ts.foldl Nat.min (Nat.min t x) := rfl
    rcases h with h | h
    · rcases Nat.le_total t x with hle | hle
      · left; rw [hfold, h]; exact Nat.min_eq_left hle
      · right
        have hmin : Nat.min t x = x := Nat.min_eq_right hle
        rw [hfold, h, hmin]
        exact List.mem_cons_self x ts
    · right
      rw [hfold]
      exact List.mem_cons_of_mem x h

/-- `jobWakeTime` never produces the falsy wake time `0`. -/
theorem jobWakeTime_ne_zero (j : ScheduledJob) (n : Nat)
    (h : jobWakeTime j = some n) : n ≠ 0 := by
  unfold jobWakeTime at h
  by_cases he : j.enabled
  · cases hn : j.state.nextRunAtMs with
    | none => simp [he, hn] at h
    | some m =>
      by_cases hm : m = 0
      · simp [he, hn, hm] at h
      · simp [he, hn, hm] at h
        omega
  · simp [he] at h

/-- When some job of the store is enabled with a defined non-zero
`nextRunAtMs`, `armTimer` arms a timer (with the usual
`max(0, nextWake - now)` delay). -/
theorem armTimer_arms_when_pending (now : Nat) (jobs : List ScheduledJob)
    (j : ScheduledJob) (m : Nat) (hj : j ∈ jobs) (hen : j.enabled = true)
    (hnr : j.state.nextRunAtMs = some m) (hm : m ≠ 0) :
    ∃ w, getNextWakeMs jobs = some w ∧ w ≤ m
      ∧ armTimerDelay true now jobs = some (w - now) := by
  have hwake : jobWakeTime j = some m := by
    simp [jobWakeTime, hen, hnr, hm]
  have hmem : m ∈ jobs.filterMap jobWakeTime :=
    List.mem_filterMap.mpr ⟨j, hj, hwake⟩
  cases htimes : jobs.filterMap jobWakeTime with
  | nil => rw [htimes] at hmem; exact absurd hmem (List.not_mem_nil m)
  | cons t ts =>
    have hle : ts.foldl Nat.min t ≤ m := by
      rw [htimes] at hmem
      rcases List.mem_cons.mp hmem with rfl | hmem'
      · exact (foldl_min_bounds ts m).1
      · exact (foldl_min_bounds ts t).2 m hmem'
    have hwne : ts.foldl Nat.min t ≠ 0 := by
      have hin : ts.foldl Nat.min t ∈ t :: ts := by
        rcases foldl_min_mem ts t with h | h
        · rw [h]; exact List.mem_cons_self t ts
        · exact List.mem_cons_of_mem t h
      rw [← htimes] at hin
      obtain ⟨j', _, hj'⟩ := List.mem_filterMap.mp hin
      exact jobWakeTime_ne_zero j' _ hj'
    have hwake : getNextWakeMs jobs = some (ts.foldl Nat.min t) := by
      unfold getNextWakeMs
      rw [htimes]
    refine ⟨ts.foldl Nat.min t, hwake, hle, ?_⟩
    simp only [armTimerDelay, hwake]
    rw [if_neg]
    rintro (h | h)
    · exact hwne h
    · exact Bool.noConfusion h

/-! ### C4 — one-shot and recurring jobs after execution -/

/-- Recording a callback outcome only touches `lastStatus`/`lastError`. -/
@[simp] theorem applyCallbackResult_id (job : ScheduledJob)
    (cbRes : Option (Except String Unit)) :
    (applyCallbackResult job cbRes).id = job.id := by
  unfold applyCallbackResult
  rcases cbRes with - | r
  · rfl
  · rcases r with - | - <;> rfl

/-- Recording a callback outcome leaves the schedule unchanged. -/
@[simp] theorem applyCallbackResult_schedule (job : ScheduledJob)
    (cbRes : Option (Except String Unit)) :
    (applyCallbackResult job cbRes).schedule = job.schedule := by
  unfold applyCallbackResult
  rcases cbRes with - | r
  · rfl
  · rcases r with - | - <;> rfl

/-- C4: after a due `"at"` job executes it is deleted when `deleteAfterRun`
holds and otherwise remains, disabled with `nextRunAtMs = undefined` — and in
the latter case it is still present in `listJobs()` after the tick; a
recurring (`"every"`/`"cron"`) job instead gets a freshly computed
`nextRunAtMs`. -/
theorem one_shot_after_execution (cron : CronOracle) (hb : Option String)
    (cb : ScheduledJob → Option (Except String Unit)) (startMs now : Nat)
    (pre post : List ScheduledJob) (job : ScheduledJob)
    (hbk : job.payload.kind ≠ "heartbeat" ∨ checkHeartbeatFile hb = true) :
    (job.schedule.kind = "at" → job.deleteAfterRun = true →
      (executeJob cron hb (cb job) startMs now job).1 = none)
    ∧ (job.schedule.kind = "at" → job.deleteAfterRun = false →
      ∃ j', (executeJob cron hb (cb job) startMs now job).1 = some j'
        ∧ j'.id = job.id ∧ j'.enabled = false
        ∧ j'.state.nextRunAtMs = none)
    ∧ ((job.schedule.kind = "every" ∨ job.schedule.kind = "cron") →
      ∃ j', (executeJob cron hb (cb job) startMs now job).1 = some j'
        ∧ j'.state.nextRunAtMs = computeNextRun cron job.schedule now)
    ∧ (∀ hbId, job.schedule.kind = "at" → job.deleteAfterRun = false →
        isDue now job = true → (some job.id : Option String) ≠ hbId →
        ∃ j', j' ∈ listJobs hbId
            (onTimerJobs cron hb cb startMs now (pre ++ job :: post))
          ∧ j'.id = job.id ∧ j'.enabled = false
          ∧ j'.state.nextRunAtMs = none) := by
  have hcond : ¬(job.payload.kind = "heartbeat"
      ∧ checkHeartbeatFile hb = false) := by
    rcases hbk with h | h
    · rintro ⟨h1, -⟩; exact h h1
    · rintro ⟨-, h2⟩; rw [h] at h2; exact Bool.noConfusion h2
  have hdel : ∀ hat : job.schedule.kind = "at",
      ∀ hd : job.deleteAfterRun = true,
      (executeJob cron hb (cb job) startMs now job).1 = none := by
    intro hat hd
    unfold executeJob
    rw [if_neg hcond, if_pos hat, if_pos hd]
  have hkeep : ∀ hat : job.schedule.kind = "at",
      ∀ hd : job.deleteAfterRun = false,
      ∃ j', (executeJob cron hb (cb job) startMs now job).1 = some j'
        ∧ j'.id = job.id ∧ j'.enabled = false
        ∧ j'.state.nextRunAtMs = none := by
    intro hat hd
    unfold executeJob
    rw [if_neg hcond, if_pos hat, if_neg (by rw [hd]; exact Bool.noConfusion)]
    exact ⟨_, rfl, by simp, rfl, rfl⟩
  refine ⟨hdel, hkeep, ?_, ?_⟩
  · intro hrec
    have hat : ¬(job.schedule.kind = "at") := by
      rcases hrec with h | h <;> rw [h] <;> decide
    unfold executeJob
    rw [if_neg hcond, if_neg hat]
    exact ⟨_, rfl, by simp⟩
  · intro hbId hat hd hdue hneq
    obtain ⟨j', hj', hid, hen, hnr⟩ := hkeep hat hd
    have hsplit := onTimerJobs_append cron hb cb startMs now pre (job :: post)
    have hmem : j' ∈ onTimerJobs cron hb cb startMs now (pre ++ job :: post) := by
      rw [hsplit]
      apply List.mem_append_right
      simp only [onTimerJobs, hdue, if_pos, hj']
      exact List.mem_append_left _ (List.mem_singleton.mpr rfl)
    refine ⟨j', ?_, hid, hen, hnr⟩
    unfold listJobs
    rw [List.mem_insertionSort, List.mem_filter]
    refine ⟨hmem, ?_⟩
    rw [hid]
    exact decide_eq_true hneq

/-- A due one-shot job (kind `"at"`, not yet run, `deleteAfterRun = false`). -/
def atJob : ScheduledJob :=
  { sampleEveryJob with
      id := "job-at"
      schedule := { kind := "at", atMs := some 5 }
      state := { nextRunAtMs := some 5 } }

/-- Witness for C4: running a tick over a store holding only the due one-shot
job `atJob` leaves it listed, disabled, with no next run. -/
theorem one_shot_after_execution_witness :
    ∃ j', j' ∈ listJobs none
        (onTimerJobs cronAlwaysFails none (fun _ => some (Except.ok ()))
          6 6 ([] ++ atJob :: []))
      ∧ j'.id = atJob.id ∧ j'.enabled = false
      ∧ j'.state.nextRunAtMs = none :=
  (one_shot_after_execution cronAlwaysFails none
      (fun _ => some (Except.ok ())) 6 6 [] [] atJob
      (Or.inl (by decide))).2.2.2 none (by decide) (by decide) (by decide)
      (by decide)

/-! ### C1 — job failures are recorded and isolated (corrected) -/

/-- C1 counterexample: a due job whose callback throws a value whose string
rendering is empty (JavaScript `throw ""` gives `String(error) === ""`) is
recorded with `lastStatus = "error"` but an *empty* `lastError`, contradicting
the claim that `lastError` always receives a non-empty rendering. -/
theorem job_error_empty_rendering_cex :
    isDue 5 sampleEveryJob = true
    ∧ ((executeJob cronAlwaysFails none (some (Except.error "")) 5 5
          sampleEveryJob).1.map
        (fun j => (j.state.lastStatus, j.state.lastError)))
      = some (some "error", some "") := by decide

/-- C1 (amended): a due, non-gated job whose callback throws gets
`lastStatus = "error"` and `lastError` set to the string rendering of the
failure (non-empty exactly when the rendering is); the failure is contained in
the job's own entry — `onTimerJobs` is a total function and the other due
jobs of the same tick are processed exactly as they would be alone — and
whenever a pending job remains after the tick, `armTimer` re-arms the single
timer. -/
theorem job_error_isolation (cron : CronOracle) (hb : Option String)
    (cb : ScheduledJob → Option (Except String Unit)) (startMs now : Nat)
    (pre post : List ScheduledJob) (job : ScheduledJob) (e : String)
    (hdue : isDue now job = true)
    (hbk : job.payload.kind ≠ "heartbeat" ∨ checkHeartbeatFile hb = true)
    (herr : cb job = some (Except.error e)) :
    (∀ j', (executeJob cron hb (cb job) startMs now job).1 = some j' →
        j'.state.lastStatus = some "error" ∧ j'.state.lastError = some e
        ∧ (e ≠ "" → j'.state.lastError ≠ some ""))
    ∧ onTimerJobs cron hb cb startMs now (pre ++ job :: post)
        = onTimerJobs cron hb cb startMs now pre
          ++ (executeJob cron hb (cb job) startMs now job).1.toList
          ++ onTimerJobs cron hb cb startMs now post
    ∧ (∀ j' m, j' ∈ onTimerJobs cron hb cb startMs now (pre ++ job :: post) →
        j'.enabled = true → j'.state.nextRunAtMs = some m → m ≠ 0 →
        ∃ w, armTimerDelay true now
            (onTimerJobs cron hb cb startMs now (pre ++ job :: post))
          = some (w - now) ∧ w ≤ m) := by
  have hcond : ¬(job.payload.kind = "heartbeat"
      ∧ checkHeartbeatFile hb = false) := by
    rcases hbk with h | h
    · rintro ⟨h1, -⟩; exact h h1
    · rintro ⟨-, h2⟩; rw [h] at h2; exact Bool.noConfusion h2
  refine ⟨?_, ?_, ?_⟩
  · intro j' hj'
    unfold executeJob at hj'
    rw [if_neg hcond, herr] at hj'
    by_cases hat : job.schedule.kind = "at"
    · rw [if_pos hat] at hj'
      by_cases hd : job.deleteAfterRun
      · rw [if_pos hd] at hj'
        exact absurd hj' (by simp)
      · rw [if_neg hd] at hj'
        cases hj'
        exact ⟨rfl, rfl, fun hne hcontra => hne (by
          have := Option.some.inj hcontra
          exact this)⟩
    · rw [if_neg hat] at hj'
      cases hj'
      exact ⟨rfl, rfl, fun hne hcontra => hne (Option.some.inj hcontra)⟩
  · rw [onTimerJobs_append]
    simp [onTimerJobs, hdue]
  · intro j' m hmem hen hnr hm
    obtain ⟨w, hw, hle, harm⟩ :=
      armTimer_arms_when_pending now _ j' m hmem hen hnr hm
    exact ⟨w, harm, hle⟩

/-- The job `sampleEveryJob` after a failing run at time `5` with error
rendering `"Error: boom"`. -/
def sampleEveryJobFailed : ScheduledJob :=
  { sampleEveryJob with
      state := { nextRunAtMs := some 15, lastRunAtMs := some 5,
                 lastStatus := some "error", lastError := some "Error: boom" }
      updatedAtMs := 5 }

/-- Witness for the amended C1 on a single-job store whose callback throws
`new Error("boom")`: the error is recorded, and the timer is re-armed for the
recomputed next run at `15`. -/
theorem job_error_isolation_witness :
    (∀ j', (executeJob cronAlwaysFails none (some (Except.error "Error: boom"))
          5 5 sampleEveryJob).1 = some j' →
        j'.state.lastStatus = some "error"
        ∧ j'.state.lastError = some "Error: boom"
        ∧ ("Error: boom" ≠ "" → j'.state.lastError ≠ some ""))
    ∧ ∃ w, armTimerDelay true 5
        (onTimerJobs cronAlwaysFails none
          (fun _ => some (Except.error "Error: boom")) 5 5
          ([] ++ sampleEveryJob :: []))
      = some (w - 5) ∧ w ≤ 15 := by
  have h := job_error_isolation cronAlwaysFails none
    (fun _ => some (Except.error "Error: boom")) 5 5 [] [] sampleEveryJob
    "Error: boom" (by decide) (Or.inl (by decide)) rfl
  refine ⟨h.1, ?_⟩
  exact h.2.2 sampleEveryJobFailed 15 (by decide) (by decide) (by decide)
    (by decide)

/-! ### C7 — subagent iteration ceiling -/

/-- The loop executes at most `fuel` further iterations. -/
theorem subagentLoop_count_le (respond : Nat → LLMResponse) :
    ∀ fuel iter, (subagentLoop respond fuel iter).2 ≤ iter + fuel
  | 0, iter => by simp [subagentLoop]
  | Nat.succ fuel, iter => by
    have hrec := subagentLoop_count_le respond fuel (iter + 1)
    unfold subagentLoop
    by_cases h : hasToolCalls (respond (iter + 1)) = true
    · simp only [h, if_true]
      omega
    · simp only [Bool.not_eq_true] at h
      simp only [h, Bool.false_eq_true, if_false]
      omega

/-- When every response up to the ceiling carries tool calls, the loop runs
the full `fuel` iterations and produces no final result. -/
theorem subagentLoop_all_tools (respond : Nat → LLMResponse) :
    ∀ fuel iter,
      (∀ i, iter < i → i ≤ iter + fuel → hasToolCalls (respond i) = true) →
      subagentLoop respond fuel iter = (none, iter + fuel)
  | 0, iter, _ => by simp [subagentLoop]
  | Nat.succ fuel, iter, h => by
    have h1 : hasToolCalls (respond (iter + 1)) = true :=
      h (iter + 1) (by omega) (by omega)
    have hrec := subagentLoop_all_tools respond fuel (iter + 1)
      (fun i hi1 hi2 => h i (by omega) (by omega))
    unfold subagentLoop
    simp only [h1, if_true, hrec]
    congr 1
    omega

/-- C7: every subagent run performs at most 15 LLM/tool iterations; the
announcement of the non-exception path always carries status `"ok"`; and when
every response up to the ceiling still carries tool calls, the run terminates
at iteration 15 with the fixed placeholder text. -/
theorem subagent_ceiling (respond : Nat → LLMResponse)
    (originChannel originChatId : String) :
    (runSubagent respond originChannel originChatId).2 ≤ 15
    ∧ (runSubagent respond originChannel originChatId).1.status = "ok"
    ∧ (runSubagent respond originChannel originChatId).1.status ≠ "error"
    ∧ ((∀ i, 1 ≤ i → i ≤ 15 → hasToolCalls (respond i) = true) →
        (runSubagent respond originChannel originChatId).1.resultText
          = "Task completed but no final response was generated."
        ∧ (runSubagent respond originChannel originChatId).2 = 15) := by
  refine ⟨?_, rfl, ?_, ?_⟩
  case refine_2 =>
    show ("ok" : String) ≠ "error"
    decide
  · have := subagentLoop_count_le respond 15 0
    simpa [runSubagent, subagentMaxIterations] using this
  · intro hall
    have hloop := subagentLoop_all_tools respond 15 0
      (fun i hi1 hi2 => hall i (by omega) (by omega))
    constructor
    · simp [runSubagent, subagentMaxIterations, hloop, subagentPlaceholder]
    · simp [runSubagent, subagentMaxIterations, hloop]

/-- An LLM response that always requests one more tool call. -/
def alwaysToolResponse : LLMResponse :=
  { content := some "working"
    toolCalls := [{ id := "t1", name := "exec", arguments := "ls" }]
    finishReason := "tool-calls" }

/-- Witness for C7: an environment whose every response carries a tool call
(a task needing more than 15 iterations) stops at exactly 15 iterations with
the placeholder text and an `"ok"` announcement. -/
theorem subagent_ceiling_witness :
    (runSubagent (fun _ => alwaysToolResponse) "cli" "direct").2 ≤ 15
    ∧ (runSubagent (fun _ => alwaysToolResponse) "cli" "direct").1.status
        = "ok"
    ∧ ((runSubagent (fun _ => alwaysToolResponse) "cli" "direct").1.resultText
        = "Task completed but no final response was generated."
      ∧ (runSubagent (fun _ => alwaysToolResponse) "cli" "direct").2 = 15) := by
  have h := subagent_ceiling (fun _ => alwaysToolResponse) "cli" "direct"
  exact ⟨h.1, h.2.1, h.2.2.2 (fun i _ _ => by decide)⟩

/-! ### Queue invariants (C10) and the timeout protocol (C2) -/

/-- Inductive invariant of the queue state machine: the buffer and the waiter
list are never both non-empty; active timers belong to registered waiters;
waiter lists are duplicate-free; a registered waiter has not been resolved
yet; and no waiter is ever resolved twice. -/
structure QInv {α : Type} (s : QState α) : Prop where
  not_both : s.queue = [] ∨ s.resolvers = []
  tim_sub : ∀ w, w ∈ s.timers → w ∈ s.resolvers
  res_nodup : s.resolvers.Nodup
  tim_nodup : s.timers.Nodup
  res_used : ∀ w, w ∈ s.resolvers → w ∈ s.used
  res_fresh : ∀ w, w ∈ s.resolvers → ∀ o, (w, o) ∉ s.outcomes
  out_nodup : (s.outcomes.map Prod.fst).Nodup
  out_used : ∀ w o, (w, o) ∈ s.outcomes → w ∈ s.used

/-- The invariant holds initially. -/
theorem qinv_init (α : Type) : QInv (initQ α) := by
  refine ⟨Or.inl rfl, ?_, ?_, ?_, ?_, ?_, ?_, ?_⟩ <;> simp [initQ]

/-- Every step of the queue preserves the invariant. -/
theorem qinv_step {α : Type} (s : QState α) (e : QEvent α) (h : QInv s) :
    QInv (qstep s e) := by
  obtain ⟨q, res, tim, usd, out, ret⟩ := s
  obtain ⟨hnb, hts, hrn, htn, hru, hrf, hon, hou⟩ := h
  dsimp only at hnb hts hrn htn hru hrf hon hou
  cases e with
  | push x =>
    cases res with
    | nil =>
      exact ⟨Or.inr rfl, hts, hrn, htn, hru, hrf, hon, hou⟩
    | cons w rest =>
      have hq : q = [] := by
        rcases hnb with h | h
        · exact h
        · exact absurd h (by simp)
      have hwrest : w ∉ rest := (List.nodup_cons.mp hrn).1
      dsimp only [qstep]
      refine ⟨Or.inl hq, ?_, (List.nodup_cons.mp hrn).2, htn.erase w, ?_, ?_,
        ?_, ?_⟩
      · intro v hv
        have hv' : v ≠ w ∧ v ∈ tim := (htn.mem_erase_iff).mp hv
        have := hts v hv'.2
        rcases List.mem_cons.mp this with rfl | hmem
        · exact absurd rfl hv'.1
        · exact hmem
      · intro v hv
        exact hru v (List.mem_cons_of_mem w hv)
      · intro v hv o hvo
        rcases List.mem_append.mp hvo with hvo | hvo
        · exact hrf v (List.mem_cons_of_mem w hv) o hvo
        · have : (v, o) = (w, some x) := List.mem_singleton.mp hvo
          have hvw : v = w := congrArg Prod.fst this
          exact hwrest (hvw ▸ hv)
      · rw [List.map_append, List.map_singleton]
        rw [List.nodup_append]
        refine ⟨hon, List.nodup_singleton w, ?_⟩
        intro v hv hv'
        have hvw : v = w := List.mem_singleton.mp hv'
        subst hvw
        obtain ⟨⟨pw, po⟩, hp, hfst⟩ := List.mem_map.mp hv
        dsimp only at hfst
        subst hfst
        exact hrf pw (List.mem_cons_self pw rest) po hp
      · intro v o hvo
        rcases List.mem_append.mp hvo with hvo | hvo
        · exact hou v o hvo
        · have : (v, o) = (w, some x) := List.mem_singleton.mp hvo
          have hvw : v = w := congrArg Prod.fst this
          subst hvw
          exact hru v (List.mem_cons_self v rest)
  | pop w =>
    cases q with
    | cons x rest =>
      have hres : res = [] := by
        rcases hnb with h | h
        · exact absurd h (by simp)
        · exact h
      subst hres
      exact ⟨Or.inr rfl, hts, hrn, htn, hru, hrf, hon, hou⟩
    | nil =>
      by_cases hw : w ∈ usd
      · rw [qstep, if_pos hw]
        exact ⟨Or.inl rfl, hts, hrn, htn, hru, hrf, hon, hou⟩
      · rw [qstep, if_neg hw]
        have hwres : w ∉ res := fun hmem => hw (hru w hmem)
        refine ⟨Or.inl rfl, ?_, ?_, htn, ?_, ?_, hon, ?_⟩
        · intro v hv
          exact List.mem_append_left _ (hts v hv)
        · rw [List.nodup_append]
          exact ⟨hrn, List.nodup_singleton w,
            fun v hv hv' => hwres ((List.mem_singleton.mp hv') ▸ hv)⟩
        · intro v hv
          rcases List.mem_append.mp hv with hv | hv
          · exact List.mem_append_left _ (hru v hv)
          · exact List.mem_append_right _ hv
        · intro v hv o hvo
          rcases List.mem_append.mp hv with hv | hv
          · exact hrf v hv o hvo
          · have hvw : v = w := List.mem_singleton.mp hv
            subst hvw
            exact hw (hou v o hvo)
        · intro v o hvo
          exact List.mem_append_left _ (hou v o hvo)
  | popT w =>
    cases q with
    | cons x rest =>
      have hres : res = [] := by
        rcases hnb with h | h
        · exact absurd h (by simp)
        · exact h
      subst hres
      exact ⟨Or.inr rfl, hts, hrn, htn, hru, hrf, hon, hou⟩
    | nil =>
      by_cases hw : w ∈ usd
      · rw [qstep, if_pos hw]
        exact ⟨Or.inl rfl, hts, hrn, htn, hru, hrf, hon, hou⟩
      · rw [qstep, if_neg hw]
        have hwres : w ∉ res := fun hmem => hw (hru w hmem)
        have hwtim : w ∉ tim := fun hmem => hw (hru w (hts w hmem))
        refine ⟨Or.inl rfl, ?_, ?_, ?_, ?_, ?_, hon, ?_⟩
        · intro v hv
          rcases List.mem_append.mp hv with hv | hv
          · exact List.mem_append_left _ (hts v hv)
          · exact List.mem_append_right _ hv
        · rw [List.nodup_append]
          exact ⟨hrn, List.nodup_singleton w,
            fun v hv hv' => hwres ((List.mem_singleton.mp hv') ▸ hv)⟩
        · rw [List.nodup_append]
          exact ⟨htn, List.nodup_singleton w,
            fun v hv hv' => hwtim ((List.mem_singleton.mp hv') ▸ hv)⟩
        · intro v hv
          rcases List.mem_append.mp hv with hv | hv
          · exact List.mem_append_left _ (hru v hv)
          · exact List.mem_append_right _ hv
        · intro v hv o hvo
          rcases List.mem_append.mp hv with hv | hv
          · exact hrf v hv o hvo
          · have hvw : v = w := List.mem_singleton.mp hv
            subst hvw
            exact hw (hou v o hvo)
        · intro v o hvo
          exact List.mem_append_left _ (hou v o hvo)
  | fire w =>
    by_cases hw : w ∈ tim
    · rw [qstep, if_pos hw]
      have hwres : w ∈ res := hts w hw
      dsimp only
      refine ⟨?_, ?_, hrn.erase w, htn.erase w, ?_, ?_, ?_, ?_⟩
      · rcases hnb with h | h
        · exact Or.inl h
        · rw [h] at hwres
          exact absurd hwres (by simp)
      · intro v hv
        have hv' : v ≠ w ∧ v ∈ tim := (htn.mem_erase_iff).mp hv
        exact (hrn.mem_erase_iff).mpr ⟨hv'.1, hts v hv'.2⟩
      · intro v hv
        exact hru v (List.mem_of_mem_erase hv)
      · intro v hv o hvo
        have hvne : v ≠ w ∧ v ∈ res := (hrn.mem_erase_iff).mp hv
        rcases List.mem_append.mp hvo with hvo | hvo
        · exact hrf v hvne.2 o hvo
        · have : (v, o) = (w, (none : Option α)) := List.mem_singleton.mp hvo
          exact hvne.1 (congrArg Prod.fst this)
      · rw [List.map_append, List.map_singleton]
        rw [List.nodup_append]
        refine ⟨hon, List.nodup_singleton w, ?_⟩
        intro v hv hv'
        have hvw : v = w := List.mem_singleton.mp hv'
        subst hvw
        obtain ⟨⟨pw, po⟩, hp, hfst⟩ := List.mem_map.mp hv
        dsimp only at hfst
        subst hfst
        exact hrf pw hwres po hp
      · intro v o hvo
        rcases List.mem_append.mp hvo with hvo | hvo
        · exact hou v o hvo
        · have : (v, o) = (w, (none : Option α)) := List.mem_singleton.mp hvo
          have hvw : v = w := congrArg Prod.fst this
          subst hvw
          exact hru v hwres
    · rw [qstep, if_neg hw]
      exact ⟨hnb, hts, hrn, htn, hru, hrf, hon, hou⟩

/-- The invariant holds in every reachable state. -/
theorem qinv_runQ {α : Type} (evs : List (QEvent α)) : QInv (runQ evs) := by
  suffices h : ∀ s : QState α, QInv s → QInv (evs.foldl qstep s) from
    h (initQ α) (qinv_init α)
  induction evs with
  | nil => intro s hs; exact hs
  | cons e rest ih =>
    intro s hs
    exact ih (qstep s e) (qinv_step s e hs)

/-- One step changes the held-or-delivered multiset exactly by the pushed
item (if any): no item is dropped and none is duplicated. -/
theorem qMass_step {α : Type} (s : QState α) (e : QEvent α) :
    qMass (qstep s e) = qMass s + (pushedItems [e] : Multiset α) := by
  obtain ⟨q, res, tim, usd, out, ret⟩ := s
  cases e with
  | push x =>
    cases res with
    | nil =>
      simp only [qstep, qMass, delivered, pushedItems, List.filterMap_cons,
        List.filterMap_nil]
      simp [← Multiset.coe_add, add_comm, add_left_comm, add_assoc]
    | cons w rest =>
      simp only [qstep, qMass, delivered, pushedItems, List.filterMap_append,
        List.filterMap_cons, List.filterMap_nil]
      simp [← Multiset.coe_add, add_comm, add_left_comm, add_assoc]
  | pop w =>
    cases q with
    | cons x rest =>
      simp only [qstep, qMass, delivered, pushedItems, List.filterMap_cons,
        List.filterMap_nil]
      simp [← Multiset.coe_add, ← Multiset.cons_coe, Multiset.cons_add,
        Multiset.add_cons, add_comm, add_left_comm, add_assoc]
    | nil =>
      by_cases hw : w ∈ usd <;>
        simp [qstep, hw, qMass, delivered, pushedItems]
  | popT w =>
    cases q with
    | cons x rest =>
      simp only [qstep, qMass, delivered, pushedItems, List.filterMap_cons,
        List.filterMap_nil]
      simp [← Multiset.coe_add, ← Multiset.cons_coe, Multiset.cons_add,
        Multiset.add_cons, add_comm, add_left_comm, add_assoc]
    | nil =>
      by_cases hw : w ∈ usd <;>
        simp [qstep, hw, qMass, delivered, pushedItems]
  | fire w =>
    by_cases hw : w ∈ tim <;>
      simp [qstep, hw, qMass, delivered, pushedItems, List.filterMap_append]

/-- Conservation over a whole run: the multiset of items pushed equals the
multiset of items still buffered, returned synchronously, or delivered to
waiters. -/
theorem qMass_runQ {α : Type} (evs : List (QEvent α)) :
    qMass (runQ evs) = (pushedItems evs : Multiset α) := by
  suffices h : ∀ s : QState α,
      qMass (evs.foldl qstep s) = qMass s + (pushedItems evs : Multiset α) by
    have h0 : qMass (initQ α) = 0 := rfl
    rw [runQ, h (initQ α), h0, zero_add]
  induction evs with
  | nil => intro s; simp [pushedItems]
  | cons e rest ih =>
    intro s
    have hstep := qMass_step s e
    calc qMass ((e :: rest).foldl qstep s)
        = qMass (rest.foldl qstep (qstep s e)) := rfl
      _ = qMass (qstep s e) + (pushedItems rest : Multiset α) := ih (qstep s e)
      _ = qMass s + (pushedItems [e] : Multiset α)
            + (pushedItems rest : Multiset α) := by rw [hstep]
      _ = qMass s + (pushedItems (e :: rest) : Multiset α) := by
          have : pushedItems (e :: rest) = pushedItems [e] ++ pushedItems rest := by
            cases e <;> simp [pushedItems]
          rw [this, ← Multiset.coe_add, add_assoc]

/-- C10: in every reachable queue state the item buffer and the waiter list
are never both non-empty; a push appends to the buffer exactly when no waiter
is registered, and otherwise hands the item to the single oldest waiter
without the item touching the buffer; no waiter is ever resolved twice; and
no pushed item is dropped or duplicated — the pushed multiset equals
buffered + synchronously returned + delivered. -/
theorem asyncQueue_invariant (α : Type) (evs : List (QEvent α)) (x : α) :
    ((runQ evs).queue = [] ∨ (runQ evs).resolvers = [])
    ∧ qMass (runQ evs) = (pushedItems evs : Multiset α)
    ∧ ((runQ evs).outcomes.map Prod.fst).Nodup
    ∧ ((runQ evs).resolvers = [] →
        qstep (runQ evs) (QEvent.push x)
          = { runQ evs with queue := (runQ evs).queue ++ [x] })
    ∧ (∀ w rest, (runQ evs).resolvers = w :: rest →
        (qstep (runQ evs) (QEvent.push x)).outcomes
            = (runQ evs).outcomes ++ [(w, some x)]
        ∧ (qstep (runQ evs) (QEvent.push x)).queue = (runQ evs).queue
        ∧ (qstep (runQ evs) (QEvent.push x)).resolvers = rest) := by
  have hinv := qinv_runQ evs
  refine ⟨hinv.not_both, qMass_runQ evs, hinv.out_nodup, ?_, ?_⟩
  · intro hres
    simp only [qstep, hres]
  · intro w rest hres
    refine ⟨?_, ?_, ?_⟩ <;> simp only [qstep, hres]

/-- C2: a fresh `popWithTimeout` waiter on an empty queue whose timeout fires
with no intervening push is resolved with `null`, its registration is removed
(the resolver list returns to what it was), and a later unrelated push cannot
resolve it — the only outcome ever logged for it is `none`.  Moreover, in
*every* event schedule (including a push racing the timeout) each waiter is
resolved at most once: the outcome log never holds two entries for one
waiter. -/
theorem popWithTimeout_exactly_once (α : Type) (evs : List (QEvent α))
    (w : Nat) (x : α)
    (hq : (runQ evs).queue = []) (hw : w ∉ (runQ evs).used) :
    ((qstep (qstep (runQ evs) (QEvent.popT w)) (QEvent.fire w)).outcomes
        = (runQ evs).outcomes ++ [(w, none)]
     ∧ (qstep (qstep (runQ evs) (QEvent.popT w)) (QEvent.fire w)).resolvers
        = (runQ evs).resolvers
     ∧ w ∉ (qstep (qstep (runQ evs) (QEvent.popT w))
          (QEvent.fire w)).resolvers
     ∧ w ∉ (qstep (qstep (runQ evs) (QEvent.popT w)) (QEvent.fire w)).timers
     ∧ (∀ o, (w, o) ∈ (qstep (qstep (qstep (runQ evs) (QEvent.popT w))
          (QEvent.fire w)) (QEvent.push x)).outcomes → o = none))
    ∧ (∀ evs' : List (QEvent α),
        ((runQ evs').outcomes.map Prod.fst).Nodup) := by
  have hinv := qinv_runQ evs
  have hwres : w ∉ (runQ evs).resolvers :=
    fun hmem => hw (hinv.res_used w hmem)
  have hwtim : w ∉ (runQ evs).timers :=
    fun hmem => hw (hinv.res_used w (hinv.tim_sub w hmem))
  have hs1 : qstep (runQ evs) (QEvent.popT w)
      = { runQ evs with
          resolvers := (runQ evs).resolvers ++ [w]
          timers := (runQ evs).timers ++ [w]
          used := (runQ evs).used ++ [w] } := by
    simp only [qstep, hq]
    rw [if_neg hw]
  have hs2 : qstep (qstep (runQ evs) (QEvent.popT w)) (QEvent.fire w)
      = { runQ evs with
          resolvers := (runQ evs).resolvers
          timers := (runQ evs).timers
          used := (runQ evs).used ++ [w]
          outcomes := (runQ evs).outcomes ++ [(w, none)] } := by
    rw [hs1]
    simp only [qstep]
    rw [if_pos (List.mem_append_right _ (List.mem_singleton.mpr rfl))]
    rw [List.erase_append_right [w] hwtim,
      List.erase_append_right [w] hwres,
      List.erase_cons_head, List.append_nil, List.append_nil]
  refine ⟨⟨?_, ?_, ?_, ?_, ?_⟩,
    fun evs' => (qinv_runQ evs').out_nodup⟩
  · rw [hs2]
  · rw [hs2]
  · rw [hs2]; exact hwres
  · rw [hs2]; exact hwtim
  · intro o ho
    rw [hs2] at ho
    cases hres : (runQ evs).resolvers with
    | nil =>
      simp only [qstep, hres] at ho
      rcases List.mem_append.mp ho with ho | ho
      · exact absurd (hinv.out_used w o ho) hw
      · have := List.mem_singleton.mp ho
        exact congrArg Prod.snd this
    | cons v rest =>
      have hvused : v ∈ (runQ evs).used :=
        hinv.res_used v (hres ▸ List.mem_cons_self v rest)
      have hvw : v ≠ w := fun hcontra => hw (hcontra ▸ hvused)
      simp only [qstep, hres] at ho
      rcases List.mem_append.mp ho with ho | ho
      · rcases List.mem_append.mp ho with ho | ho
        · exact absurd (hinv.out_used w o ho) hw
        · have := List.mem_singleton.mp ho
          exact congrArg Prod.snd this
      · have := List.mem_singleton.mp ho
        have hvw' : w = v := congrArg Prod.fst this
        exact absurd hvw'.symm hvw

/-- Witness for C2: on the empty initial queue, waiter `0` registers via
`popWithTimeout`, its timeout fires, and then an unrelated `push 7` arrives;
the timed-out waiter is resolved exactly once, with `null`. -/
theorem popWithTimeout_exactly_once_witness :
    ((qstep (qstep (runQ ([] : List (QEvent Nat))) (QEvent.popT 0))
        (QEvent.fire 0)).outcomes
        = (runQ ([] : List (QEvent Nat))).outcomes ++ [(0, none)]
     ∧ (qstep (qstep (runQ ([] : List (QEvent Nat))) (QEvent.popT 0))
          (QEvent.fire 0)).resolvers
        = (runQ ([] : List (QEvent Nat))).resolvers
     ∧ 0 ∉ (qstep (qstep (runQ ([] : List (QEvent Nat))) (QEvent.popT 0))
          (QEvent.fire 0)).resolvers
     ∧ 0 ∉ (qstep (qstep (runQ ([] : List (QEvent Nat))) (QEvent.popT 0))
          (QEvent.fire 0)).timers
     ∧ (∀ o, (0, o) ∈ (qstep (qstep (qstep (runQ ([] : List (QEvent Nat)))
          (QEvent.popT 0)) (QEvent.fire 0)) (QEvent.push 7)).outcomes →
          o = none))
    ∧ (∀ evs' : List (QEvent Nat),
        ((runQ evs').outcomes.map Prod.fst).Nodup) :=
  popWithTimeout_exactly_once Nat [] 0 7 (by decide) (by decide)

end Miniclawd
